import Mathlib

/-!
Verification development for the Naukri scraping script
(src/Single_Python_FIle/naukri_scraper.py).

Strings are modelled as lists of characters (`Str`), restricted to the
ASCII behaviour of the Python string and `re` operations that the script
uses.  Each Python helper of the script is embedded as an executable Lean
function; the stateful `main` routine is embedded as a trace semantics,
with one boolean per library call that may raise an exception.
-/

/-- Strings of the model: lists of characters. -/
abbrev Str := List Char

/-- ASCII whitespace, as matched by the Python regex class backslash-s and
stripped by `str.strip`: space, tab, newline, carriage return, vertical
tab and form feed. -/
def isSpace (c : Char) : Bool :=
  c = ' ' || c = '\t' || c = '\n' || c = '\r' || c = '\x0b' || c = '\x0c'

/-- ASCII word characters, as matched by the Python regex class
backslash-w: letters, digits and the underscore. -/
def isWordChar (c : Char) : Bool :=
  c.isAlphanum || c = '_'

theorem isWordChar_not_isSpace {c : Char} (h : isWordChar c = true) :
    isSpace c = false := by
  by_contra hs
  have hs' : isSpace c = true := by
    cases hh : isSpace c
    · exact absurd hh hs
    · rfl
  simp only [isSpace, Bool.or_eq_true, decide_eq_true_eq] at hs'
  rcases hs' with ((((h1 | h1) | h1) | h1) | h1) | h1 <;> subst h1 <;> simp [isWordChar] at h

/-- Python `str.lower`, restricted to ASCII. -/
def pyLower (s : Str) : Str := s.map Char.toLower

/-- Python `needle in haystack` / substring containment test. -/
def containsSub (needle : Str) : Str → Bool
  | [] => needle.isEmpty
  | c :: rest => needle.isPrefixOf (c :: rest) || containsSub needle rest

/-- Python `s.split(",")`: split at every comma, keeping empty fields;
the empty string splits to one empty field. -/
def splitOnComma : Str → List Str
  | [] => [[]]
  | c :: rest =>
    if c = ',' then [] :: splitOnComma rest
    else
      match splitOnComma rest with
      | [] => [[c]]
      | f :: fs => (c :: f) :: fs

/-- Python `s.replace(pat, repl)`: replace every non-overlapping
occurrence of `pat`, scanning left to right.  (For the empty pattern the
input is returned unchanged; the script only replaces non-empty
patterns.) -/
def replaceAll (pat repl : Str) (s : Str) : Str :=
  match s with
  | [] => []
  | c :: rest =>
    if h : pat ≠ [] ∧ pat.isPrefixOf (c :: rest) then
      repl ++ replaceAll pat repl ((c :: rest).drop pat.length)
    else
      c :: replaceAll pat repl rest
termination_by s.length
decreasing_by
  · obtain ⟨hne, _⟩ := h
    have hlen : 0 < pat.length := List.length_pos.mpr hne
    simp only [List.length_drop, List.length_cons]
    omega
  · simp [List.length_cons]

/-- Right strip: remove trailing whitespace (the tail half of Python
`str.strip`). -/
def rstrip : Str → Str
  | [] => []
  | c :: rest =>
    match rstrip rest with
    | [] => if isSpace c then [] else [c]
    | r => c :: r

/-- Python `str.strip`: remove leading and trailing whitespace. -/
def pyStrip (s : Str) : Str := rstrip (s.dropWhile isSpace)

/-- Index of the last occurrence of `c`, if any. -/
def lastIdxOf (c : Char) : Str → Option Nat
  | [] => none
  | x :: rest =>
    match lastIdxOf c rest with
    | some k => some (k + 1)
    | none => if x = c then some 0 else none

/-!
The five substitution passes of `replace_location_patterns`
(naukri_scraper.py lines 162-172).  Each pass embeds one
`re.sub(pattern, "", location)` call, with Python `re` semantics
(leftmost match, greedy quantifiers, scanning resumes after each match,
a dot does not match a newline).
-/

/-- Pass 1, pattern backslash-( .* backslash-): at the leftmost "(" that
has a ")" later on the same line, greedily delete up to the last such
")", then keep scanning after the match. -/
def subParen (cs : Str) : Str :=
  match cs with
  | [] => []
  | c :: rest =>
    if c = '(' then
      match lastIdxOf ')' (rest.takeWhile (fun x => x != '\n')) with
      | some k => subParen (rest.drop (k + 1))
      | none => c :: subParen rest
    else c :: subParen rest
termination_by cs.length
decreasing_by
  · simp only [List.length_drop, List.length_cons]; omega
  · simp [List.length_cons]
  · simp [List.length_cons]

/-- Pass 2, pattern "hybrid" backslash-s* "-" backslash-s*: the literal
word "hybrid", optional whitespace, a dash, then greedily all following
whitespace. -/
def subHybrid (cs : Str) : Str :=
  match cs with
  | [] => []
  | c :: rest =>
    if hw : (['h', 'y', 'b', 'r', 'i', 'd'].isPrefixOf (c :: rest)
        && ['-'].isPrefixOf ((rest.drop 5).dropWhile isSpace)) = true then
      subHybrid ((((rest.drop 5).dropWhile isSpace).drop 1).dropWhile isSpace)
    else c :: subHybrid rest
termination_by cs.length
decreasing_by
  · have hd : ['-'].isPrefixOf ((rest.drop 5).dropWhile isSpace) = true :=
      (Bool.and_eq_true ..).mp hw |>.2
    have hne : (rest.drop 5).dropWhile isSpace ≠ [] := by
      intro he; rw [he] at hd; simp [List.isPrefixOf] at hd
    have h1 : ((((rest.drop 5).dropWhile isSpace).drop 1).dropWhile isSpace).length ≤
        (((rest.drop 5).dropWhile isSpace).drop 1).length := (List.dropWhile_sublist _).length_le
    have h2 : ((rest.drop 5).dropWhile isSpace).length ≤ (rest.drop 5).length :=
      (List.dropWhile_sublist _).length_le
    have h3 : 0 < ((rest.drop 5).dropWhile isSpace).length := List.length_pos.mpr hne
    simp only [List.length_drop, List.length_cons] at h1 h2 ⊢
    omega
  · simp [List.length_cons]

/-- Pass 3, pattern backslash-b "new" backslash-s: "new" at a word
boundary followed by one whitespace character.  The boolean argument
records whether the previously scanned character of the original string
was a word character (false at the start of the string). -/
def subNew : Bool → Str → Str
  | _, [] => []
  | prevW, 'n' :: 'e' :: 'w' :: d :: rest =>
    if !prevW && isSpace d then subNew false rest
    else 'n' :: subNew true ('e' :: 'w' :: d :: rest)
  | _, c :: rest => c :: subNew (isWordChar c) rest

/-- Pass 4, pattern backslash-s*: `re.sub` with this pattern deletes
every maximal whitespace run (empty matches at the remaining positions
substitute the empty string), so it removes every whitespace
character. -/
def removeAllSpace (cs : Str) : Str := cs.filter (fun c => !isSpace c)

/-- Pass 5, pattern "/" .* $: a slash is deleted together with the rest
of the string when no newline follows it, or up to a final newline when
that newline is the last character; otherwise scanning moves on. -/
def subSlashEnd : Str → Str
  | [] => []
  | c :: rest =>
    if c = '/' then
      if rest.all (fun x => x != '\n') then []
      else if (rest.dropLast.all (fun x => x != '\n')) && (rest.getLast? == some '\n') then ['\n']
      else c :: subSlashEnd rest
    else c :: subSlashEnd rest

/-- `replace_location_patterns` (lines 162-172): the five `re.sub`
passes in order, then `str.strip`. -/
def replace_location_patterns (cs : Str) : Str :=
  pyStrip (subSlashEnd (removeAllSpace (subNew false (subHybrid (subParen cs)))))

example : replace_location_patterns ("navi mumbai".toList) = "navimumbai".toList := by
  simp [replace_location_patterns, subParen, subHybrid, subNew, removeAllSpace,
    subSlashEnd, pyStrip, rstrip, isSpace, List.filter]

example : replace_location_patterns ("hybrid - new delhi (remote)/ncr".toList) = "delhi".toList := by
  simp +decide [replace_location_patterns, subParen, subHybrid, subNew, removeAllSpace,
    subSlashEnd, pyStrip, rstrip, isSpace, isWordChar, lastIdxOf, List.filter,
    List.dropWhile, List.takeWhile]

theorem mem_getLast? {l : Str} {a : Char} (h : l.getLast? = some a) : a ∈ l := by
  induction l with
  | nil => simp at h
  | cons c rest ih =>
    cases rest with
    | nil => simp [List.getLast?] at h; simp [h]
    | cons d rest' =>
      rw [List.getLast?_cons_cons] at h
      exact List.mem_cons_of_mem _ (ih h)

theorem mem_subSlashEnd {cs : Str} {x : Char} (h : x ∈ subSlashEnd cs) : x ∈ cs := by
  induction cs with
  | nil => simpa [subSlashEnd] using h
  | cons c rest ih =>
    rw [subSlashEnd] at h
    split_ifs at h with hc h1 h2
    · simp at h
    · simp only [List.mem_singleton] at h
      subst h
      have h3 : rest.getLast? = some '\n' := by
        have := (Bool.and_eq_true ..).mp h2 |>.2
        simpa using this
      exact List.mem_cons_of_mem _ (mem_getLast? h3)
    · rcases List.mem_cons.mp h with h | h
      · simp [h]
      · exact List.mem_cons_of_mem _ (ih h)
    · rcases List.mem_cons.mp h with h | h
      · simp [h]
      · exact List.mem_cons_of_mem _ (ih h)

theorem mem_rstrip {cs : Str} {x : Char} (h : x ∈ rstrip cs) : x ∈ cs := by
  induction cs with
  | nil => simpa [rstrip] using h
  | cons c rest ih =>
    rw [rstrip] at h
    rcases hr : rstrip rest with _ | ⟨d, r⟩
    · rw [hr] at h
      by_cases hs : isSpace c = true
      · simp [hs] at h
      · simp only [Bool.not_eq_true] at hs
        simp only [hs, Bool.false_eq_true, if_false, List.mem_singleton] at h
        simp [h]
    · rw [hr] at h
      rcases List.mem_cons.mp h with h | h
      · simp [h]
      · exact List.mem_cons_of_mem _ (ih (hr ▸ h))

theorem mem_pyStrip {cs : Str} {x : Char} (h : x ∈ pyStrip cs) : x ∈ cs :=
  (List.dropWhile_sublist isSpace).mem (mem_rstrip h)

theorem mem_removeAllSpace_not_space {cs : Str} {x : Char}
    (h : x ∈ removeAllSpace cs) : isSpace x = false := by
  have := List.mem_filter.mp h |>.2
  simpa using this

/-- C9: for every input string, `replace_location_patterns` returns a
string containing no whitespace characters (the backslash-s* pass deletes
every whitespace run and no later pass reintroduces whitespace); in
particular multi-word location names are concatenated, for example
"navi mumbai" becomes "navimumbai". -/
theorem c9_no_whitespace :
    (∀ cs : Str, (replace_location_patterns cs).all (fun c => !isSpace c) = true) ∧
    replace_location_patterns ("navi mumbai".toList) = "navimumbai".toList := by
  constructor
  · intro cs
    rw [List.all_eq_true]
    intro x hx
    have hx1 : x ∈ subSlashEnd (removeAllSpace (subNew false (subHybrid (subParen cs)))) :=
      mem_pyStrip hx
    have hx2 : x ∈ removeAllSpace (subNew false (subHybrid (subParen cs))) :=
      mem_subSlashEnd hx1
    simp [mem_removeAllSpace_not_space hx2]
  · simp [replace_location_patterns, subParen, subHybrid, subNew, removeAllSpace,
      subSlashEnd, pyStrip, rstrip, isSpace, List.filter]

/-!
`replace_common_locations` (naukri_scraper.py lines 176-185) applies four
substitutions `re.sub(r"\b\w*NEEDLE\w*\b", REPL, location)`.  Because the
pattern is bracketed by word boundaries and matches only word characters,
a match is exactly a maximal run of word characters that contains the
needle as a substring, and the whole run is replaced.  `mapRuns` is this
engine: it rewrites every maximal word-character run of the string by a
given function and keeps all other characters in place.
-/

def mapRuns (φ : Str → Str) (cs : Str) : Str :=
  match cs with
  | [] => []
  | c :: rest =>
    if isWordChar c then
      φ (c :: rest.takeWhile isWordChar) ++ mapRuns φ (rest.dropWhile isWordChar)
    else c :: mapRuns φ rest
termination_by cs.length
decreasing_by
  · have hdw : (rest.dropWhile isWordChar).length ≤ rest.length :=
      (List.dropWhile_sublist _).length_le
    simp only [List.length_cons]
    omega
  · simp [List.length_cons]

/-- The per-run action of one `re.sub(r"\b\w*NEEDLE\w*\b", REPL, s)`
call: a word run containing the needle becomes `repl`, any other run is
kept. -/
def phiOf (needle repl : Str) (run : Str) : Str :=
  if containsSub needle run then repl else run

/-- One `re.sub(r"\b\w*NEEDLE\w*\b", REPL, s)` call: every maximal word
run containing the needle is replaced by `repl`. -/
def subWordContain (needle repl : Str) (cs : Str) : Str :=
  mapRuns (phiOf needle repl) cs

/-- `replace_common_locations` (lines 176-185): the four substitutions in
the dictionary order mumbai, delhi, bangal, noida, then `str.strip`. -/
def replace_common_locations (cs : Str) : Str :=
  pyStrip (subWordContain ("noida".toList) ("noida".toList)
    (subWordContain ("bangal".toList) ("bengaluru".toList)
      (subWordContain ("delhi".toList) ("delhi".toList)
        (subWordContain ("mumbai".toList) ("mumbai".toList) cs))))

example : replace_common_locations ("navimumbai".toList) = "mumbai".toList := by
  simp +decide [replace_common_locations, subWordContain, mapRuns, phiOf, containsSub,
    isWordChar, pyStrip, rstrip, isSpace, List.takeWhile, List.dropWhile,
    List.isPrefixOf]

example : replace_common_locations ("xbangaly-noida2".toList) = "bengaluru-noida".toList := by
  simp +decide [replace_common_locations, subWordContain, mapRuns, phiOf, containsSub,
    isWordChar, pyStrip, rstrip, isSpace, List.takeWhile, List.dropWhile,
    List.isPrefixOf]

/-- Run maps that are well behaved: they send a nonempty all-word run to
a nonempty all-word run.  Every `phiOf` of the script is of this kind. -/
def GoodPhi (φ : Str → Str) : Prop :=
  ∀ r : Str, r ≠ [] → (∀ c ∈ r, isWordChar c = true) →
    φ r ≠ [] ∧ ∀ c ∈ φ r, isWordChar c = true

theorem goodPhi_phiOf (needle repl : Str) (hne : repl ≠ [])
    (hw : ∀ c ∈ repl, isWordChar c = true) : GoodPhi (phiOf needle repl) := by
  intro r hr hrw
  unfold phiOf
  by_cases h : containsSub needle r = true
  · simp only [h, if_true]
    exact ⟨hne, hw⟩
  · simp only [Bool.not_eq_true] at h
    simp only [h, Bool.false_eq_true, if_false]
    exact ⟨hr, hrw⟩

theorem goodPhi_comp {φ ψ : Str → Str} (hφ : GoodPhi φ) (hψ : GoodPhi ψ) :
    GoodPhi (fun r => ψ (φ r)) := by
  intro r hr hrw
  obtain ⟨h1, h2⟩ := hφ r hr hrw
  exact hψ (φ r) h1 h2

theorem takeWhile_append_all {p : Char → Bool} {a : Str} (b : Str)
    (h : ∀ c ∈ a, p c = true) : (a ++ b).takeWhile p = a ++ b.takeWhile p := by
  induction a with
  | nil => simp
  | cons x a2 ih =>
    have hx : p x = true := h x (List.mem_cons_self ..)
    simp only [List.cons_append, List.takeWhile_cons, hx, if_true]
    rw [ih (fun c hc => h c (List.mem_cons_of_mem _ hc))]

theorem dropWhile_append_all {p : Char → Bool} {a : Str} (b : Str)
    (h : ∀ c ∈ a, p c = true) : (a ++ b).dropWhile p = b.dropWhile p := by
  induction a with
  | nil => simp
  | cons x a2 ih =>
    have hx : p x = true := h x (List.mem_cons_self ..)
    simp only [List.cons_append, List.dropWhile_cons, hx, if_true]
    exact ih (fun c hc => h c (List.mem_cons_of_mem _ hc))

theorem mem_takeWhile_word {rest : Str} {x : Char}
    (h : x ∈ rest.takeWhile isWordChar) : isWordChar x = true := by
  induction rest with
  | nil => simp at h
  | cons c r ih =>
    rw [List.takeWhile_cons] at h
    by_cases hc : isWordChar c = true
    · simp only [hc, if_true, List.mem_cons] at h
      rcases h with h | h
      · exact h ▸ hc
      · exact ih h
    · simp only [Bool.not_eq_true] at hc
      simp [hc] at h

theorem head_dropWhile_word {rest : Str} {d : Char}
    (h : (rest.dropWhile isWordChar).head? = some d) : isWordChar d = false := by
  induction rest with
  | nil => simp at h
  | cons c r ih =>
    rw [List.dropWhile_cons] at h
    by_cases hc : isWordChar c = true
    · simp only [hc, if_true] at h
      exact ih h
    · simp only [Bool.not_eq_true] at hc
      simp only [hc, Bool.false_eq_true, if_false, List.head?_cons, Option.some_inj] at h
      exact h ▸ hc

theorem mapRuns_nil (φ : Str → Str) : mapRuns φ [] = [] := by
  rw [mapRuns]

theorem mapRuns_cons_word {φ : Str → Str} {c : Char} {rest : Str}
    (h : isWordChar c = true) :
    mapRuns φ (c :: rest) =
      φ (c :: rest.takeWhile isWordChar) ++ mapRuns φ (rest.dropWhile isWordChar) := by
  rw [mapRuns]; simp [h]

theorem mapRuns_cons_not_word {φ : Str → Str} {c : Char} {rest : Str}
    (h : isWordChar c = false) :
    mapRuns φ (c :: rest) = c :: mapRuns φ rest := by
  rw [mapRuns]; simp [h]

theorem run_ne_nil (c : Char) (t : Str) : c :: t ≠ [] := by simp

theorem run_all_word {c : Char} {rest : Str} (h : isWordChar c = true) :
    ∀ x ∈ c :: rest.takeWhile isWordChar, isWordChar x = true := by
  intro x hx
  rcases List.mem_cons.mp hx with hx | hx
  · exact hx ▸ h
  · exact mem_takeWhile_word hx

theorem mapRuns_ne_nil {φ : Str → Str} (hφ : GoodPhi φ) {cs : Str} (h : cs ≠ []) :
    mapRuns φ cs ≠ [] := by
  cases cs with
  | nil => exact absurd rfl h
  | cons c rest =>
    by_cases hc : isWordChar c = true
    · rw [mapRuns_cons_word hc]
      have := (hφ (c :: rest.takeWhile isWordChar) (run_ne_nil c _) (run_all_word hc)).1
      intro he
      exact this (List.append_eq_nil.mp he).1
    · simp only [Bool.not_eq_true] at hc
      rw [mapRuns_cons_not_word hc]
      simp

theorem head_mapRuns_not_word {φ : Str → Str} {cs : Str}
    (hcs : ∀ d, cs.head? = some d → isWordChar d = false) :
    ∀ d, (mapRuns φ cs).head? = some d → isWordChar d = false := by
  cases cs with
  | nil => intro d hd; rw [mapRuns_nil] at hd; simp at hd
  | cons c rest =>
    have hc : isWordChar c = false := hcs c (by simp)
    rw [mapRuns_cons_not_word hc]
    intro d hd
    simp only [List.head?_cons, Option.some_inj] at hd
    exact hd ▸ hc

theorem mapRuns_append_run {φ : Str → Str} {a b : Str}
    (ha : a ≠ []) (haw : ∀ c ∈ a, isWordChar c = true)
    (hb : ∀ d, b.head? = some d → isWordChar d = false) :
    mapRuns φ (a ++ b) = φ a ++ mapRuns φ b := by
  cases a with
  | nil => exact absurd rfl ha
  | cons x a2 =>
    have hx : isWordChar x = true := haw x (List.mem_cons_self ..)
    have ha2 : ∀ c ∈ a2, isWordChar c = true := fun c hc => haw c (List.mem_cons_of_mem _ hc)
    have htake : b.takeWhile isWordChar = [] := by
      cases b with
      | nil => simp
      | cons d b2 =>
        have : isWordChar d = false := hb d (by simp)
        simp [List.takeWhile_cons, this]
    have hdrop : b.dropWhile isWordChar = b := by
      cases b with
      | nil => simp
      | cons d b2 =>
        have : isWordChar d = false := hb d (by simp)
        simp [List.dropWhile_cons, this]
    rw [List.cons_append, mapRuns_cons_word hx]
    rw [takeWhile_append_all b ha2, dropWhile_append_all b ha2, htake, hdrop]
    simp

theorem mapRuns_comp_bounded {φ ψ : Str → Str} (hφ : GoodPhi φ) :
    ∀ n (cs : Str), cs.length ≤ n →
      mapRuns ψ (mapRuns φ cs) = mapRuns (fun r => ψ (φ r)) cs := by
  intro n
  induction n with
  | zero =>
    intro cs hlen
    have : cs = [] := List.eq_nil_of_length_eq_zero (Nat.le_zero.mp hlen)
    subst this
    simp [mapRuns_nil]
  | succ n ih =>
    intro cs hlen
    cases cs with
    | nil => simp [mapRuns_nil]
    | cons c rest =>
      by_cases hc : isWordChar c = true
      · rw [mapRuns_cons_word hc, mapRuns_cons_word hc]
        have hrun := hφ (c :: rest.takeWhile isWordChar) (run_ne_nil c _) (run_all_word hc)
        have hhead : ∀ d, (mapRuns φ (rest.dropWhile isWordChar)).head? = some d →
            isWordChar d = false :=
          head_mapRuns_not_word (fun d hd => head_dropWhile_word (by simpa using hd))
        rw [mapRuns_append_run hrun.1 hrun.2 hhead]
        have hlen2 : (rest.dropWhile isWordChar).length ≤ n := by
          have hdw : (rest.dropWhile isWordChar).length ≤ rest.length :=
            (List.dropWhile_sublist _).length_le
          simp only [List.length_cons] at hlen
          omega
        rw [ih _ hlen2]
      · simp only [Bool.not_eq_true] at hc
        rw [mapRuns_cons_not_word hc, mapRuns_cons_not_word hc, mapRuns_cons_not_word hc]
        have hlen2 : rest.length ≤ n := by
          simp only [List.length_cons] at hlen; omega
        rw [ih _ hlen2]

theorem mapRuns_comp {φ ψ : Str → Str} (hφ : GoodPhi φ) (cs : Str) :
    mapRuns ψ (mapRuns φ cs) = mapRuns (fun r => ψ (φ r)) cs :=
  mapRuns_comp_bounded hφ cs.length cs Nat.le.refl

theorem mapRuns_congr_bounded {φ ψ : Str → Str}
    (h : ∀ r : Str, r ≠ [] → (∀ c ∈ r, isWordChar c = true) → φ r = ψ r) :
    ∀ n (cs : Str), cs.length ≤ n → mapRuns φ cs = mapRuns ψ cs := by
  intro n
  induction n with
  | zero =>
    intro cs hlen
    have : cs = [] := List.eq_nil_of_length_eq_zero (Nat.le_zero.mp hlen)
    subst this
    simp [mapRuns_nil]
  | succ n ih =>
    intro cs hlen
    cases cs with
    | nil => simp [mapRuns_nil]
    | cons c rest =>
      by_cases hc : isWordChar c = true
      · rw [mapRuns_cons_word hc, mapRuns_cons_word hc,
          h (c :: rest.takeWhile isWordChar) (run_ne_nil c _) (run_all_word hc)]
        have hlen2 : (rest.dropWhile isWordChar).length ≤ n := by
          have hdw : (rest.dropWhile isWordChar).length ≤ rest.length :=
            (List.dropWhile_sublist _).length_le
          simp only [List.length_cons] at hlen
          omega
        rw [ih _ hlen2]
      · simp only [Bool.not_eq_true] at hc
        rw [mapRuns_cons_not_word hc, mapRuns_cons_not_word hc]
        have hlen2 : rest.length ≤ n := by
          simp only [List.length_cons] at hlen; omega
        rw [ih _ hlen2]

theorem mapRuns_congr {φ ψ : Str → Str}
    (h : ∀ r : Str, r ≠ [] → (∀ c ∈ r, isWordChar c = true) → φ r = ψ r) (cs : Str) :
    mapRuns φ cs = mapRuns ψ cs :=
  mapRuns_congr_bounded h cs.length cs Nat.le.refl

theorem isSpace_not_wordChar {c : Char} (h : isSpace c = true) : isWordChar c = false := by
  by_cases hw : isWordChar c = true
  · rw [isWordChar_not_isSpace hw] at h; exact absurd h (by simp)
  · simpa using hw

theorem mapRuns_dropWhile_isSpace {φ : Str → Str} (hφ : GoodPhi φ) (cs : Str) :
    mapRuns φ (cs.dropWhile isSpace) = (mapRuns φ cs).dropWhile isSpace := by
  induction cs with
  | nil => simp [mapRuns_nil]
  | cons c rest ih =>
    by_cases hs : isSpace c = true
    · have hw : isWordChar c = false := isSpace_not_wordChar hs
      rw [List.dropWhile_cons, mapRuns_cons_not_word hw, List.dropWhile_cons]
      simp only [hs, if_true]
      exact ih
    · simp only [Bool.not_eq_true] at hs
      rw [List.dropWhile_cons]
      simp only [hs, Bool.false_eq_true, if_false]
      by_cases hw : isWordChar c = true
      · rw [mapRuns_cons_word hw]
        have hrun := hφ (c :: rest.takeWhile isWordChar) (run_ne_nil c _) (run_all_word hw)
        rcases hfr : φ (c :: rest.takeWhile isWordChar) with _ | ⟨d, r⟩
        · exact absurd hfr hrun.1
        · have hd : isWordChar d = true := by
            have := hrun.2 d
            rw [hfr] at this
            exact this (List.mem_cons_self ..)
          rw [List.cons_append, List.dropWhile_cons, isWordChar_not_isSpace hd]
          simp
      · simp only [Bool.not_eq_true] at hw
        rw [mapRuns_cons_not_word hw, List.dropWhile_cons]
        simp [hs]

theorem rstrip_append_nonspace {a : Str} (b : Str)
    (h : ∀ c ∈ a, isSpace c = false) : rstrip (a ++ b) = a ++ rstrip b := by
  induction a with
  | nil => simp
  | cons x a2 ih =>
    have hx : isSpace x = false := h x (List.mem_cons_self ..)
    have ha2 : rstrip (a2 ++ b) = a2 ++ rstrip b :=
      ih (fun c hc => h c (List.mem_cons_of_mem _ hc))
    rw [List.cons_append, rstrip, ha2]
    rcases hab : a2 ++ rstrip b with _ | ⟨d, r⟩
    · obtain ⟨h1, h2⟩ := List.append_eq_nil.mp hab
      rw [h1, h2]
      simp [hx]
    · have hgoal : x :: a2 ++ rstrip b = x :: d :: r := by rw [List.cons_append, hab]
      rw [hgoal]

theorem rstrip_head? (l : Str) : rstrip l = [] ∨ (rstrip l).head? = l.head? := by
  cases l with
  | nil => left; rfl
  | cons c rest =>
    rw [rstrip]
    rcases hr : rstrip rest with _ | ⟨d, r⟩
    · by_cases hs : isSpace c = true
      · left; simp [hs]
      · right; simp only [Bool.not_eq_true] at hs; simp [hs]
    · right; simp

theorem rstrip_idem (l : Str) : rstrip (rstrip l) = rstrip l := by
  induction l with
  | nil => simp [rstrip]
  | cons c rest ih =>
    rw [rstrip]
    rcases hr : rstrip rest with _ | ⟨d, r⟩
    · by_cases hs : isSpace c = true
      · simp [hs, rstrip]
      · simp only [Bool.not_eq_true] at hs
        simp only [hs, Bool.false_eq_true, if_false]
        rw [rstrip, rstrip]
        simp [hs]
    · rw [rstrip]
      have : rstrip (d :: r) = d :: r := by rw [← hr, ih, hr]
      rw [this]

theorem head_dropWhile_false {p : Char → Bool} {l : Str} {d : Char}
    (h : (l.dropWhile p).head? = some d) : p d = false := by
  induction l with
  | nil => simp at h
  | cons c r ih =>
    rw [List.dropWhile_cons] at h
    by_cases hc : p c = true
    · simp only [hc, if_true] at h
      exact ih h
    · simp only [Bool.not_eq_true] at hc
      simp only [hc, Bool.false_eq_true, if_false, List.head?_cons, Option.some_inj] at h
      exact h ▸ hc

theorem dropWhile_noop {p : Char → Bool} {l : Str}
    (h : ∀ d, l.head? = some d → p d = false) : l.dropWhile p = l := by
  cases l with
  | nil => simp
  | cons c r =>
    have : p c = false := h c (by simp)
    simp [List.dropWhile_cons, this]

theorem mapRuns_rstrip_bounded {φ : Str → Str} (hφ : GoodPhi φ) :
    ∀ n (cs : Str), cs.length ≤ n → mapRuns φ (rstrip cs) = rstrip (mapRuns φ cs) := by
  intro n
  induction n with
  | zero =>
    intro cs hlen
    have : cs = [] := List.eq_nil_of_length_eq_zero (Nat.le_zero.mp hlen)
    subst this
    simp [mapRuns_nil, rstrip]
  | succ n ih =>
    intro cs hlen
    cases cs with
    | nil => simp [mapRuns_nil, rstrip]
    | cons c rest =>
      by_cases hc : isWordChar c = true
      · -- a maximal word run starts here
        have hsplit : c :: rest = (c :: rest.takeWhile isWordChar) ++ rest.dropWhile isWordChar := by
          rw [List.cons_append, List.takeWhile_append_dropWhile]
        have hrunw := @run_all_word c rest hc
        have hrunsp : ∀ x ∈ c :: rest.takeWhile isWordChar, isSpace x = false :=
          fun x hx => isWordChar_not_isSpace (hrunw x hx)
        have hbhead : ∀ d, (rstrip (rest.dropWhile isWordChar)).head? = some d →
            isWordChar d = false := by
          rcases rstrip_head? (rest.dropWhile isWordChar) with h | h
          · rw [h]; intro d hd; simp at hd
          · rw [h]; intro d hd; exact head_dropWhile_false hd
        have hlen2 : (rest.dropWhile isWordChar).length ≤ n := by
          have hdw : (rest.dropWhile isWordChar).length ≤ rest.length :=
            (List.dropWhile_sublist _).length_le
          simp only [List.length_cons] at hlen
          omega
        have hrun := hφ (c :: rest.takeWhile isWordChar) (run_ne_nil c _) hrunw
        have hphisp : ∀ x ∈ φ (c :: rest.takeWhile isWordChar), isSpace x = false :=
          fun x hx => isWordChar_not_isSpace (hrun.2 x hx)
        calc mapRuns φ (rstrip (c :: rest))
            = mapRuns φ ((c :: rest.takeWhile isWordChar) ++
                rstrip (rest.dropWhile isWordChar)) := by
              conv in rstrip (c :: rest) => rw [hsplit]
              rw [rstrip_append_nonspace _ hrunsp]
          _ = φ (c :: rest.takeWhile isWordChar) ++
                mapRuns φ (rstrip (rest.dropWhile isWordChar)) :=
              mapRuns_append_run (run_ne_nil c _) hrunw hbhead
          _ = φ (c :: rest.takeWhile isWordChar) ++
                rstrip (mapRuns φ (rest.dropWhile isWordChar)) := by
              rw [ih _ hlen2]
          _ = rstrip (φ (c :: rest.takeWhile isWordChar) ++
                mapRuns φ (rest.dropWhile isWordChar)) := by
              rw [rstrip_append_nonspace _ hphisp]
          _ = rstrip (mapRuns φ (c :: rest)) := by rw [mapRuns_cons_word hc]
      · simp only [Bool.not_eq_true] at hc
        have hlen2 : rest.length ≤ n := by simp only [List.length_cons] at hlen; omega
        rw [mapRuns_cons_not_word hc, rstrip]
        rcases hr : rstrip rest with _ | ⟨d, r⟩
        · have hmr : rstrip (mapRuns φ rest) = [] := by
            rw [← ih _ hlen2, hr, mapRuns_nil]
          by_cases hs : isSpace c = true
          · simp only [hs, if_true]
            rw [mapRuns_nil, rstrip, hmr]
            simp [hs]
          · simp only [Bool.not_eq_true] at hs
            simp only [hs, Bool.false_eq_true, if_false]
            rw [mapRuns_cons_not_word hc, mapRuns_nil, rstrip, hmr]
            simp [hs]
        · have hmr : rstrip (mapRuns φ rest) = mapRuns φ (d :: r) := by
            rw [← ih _ hlen2, hr]
          have hne : rstrip (mapRuns φ rest) ≠ [] := by
            rw [hmr]
            exact mapRuns_ne_nil hφ (by simp)
          rw [mapRuns_cons_not_word hc, rstrip]
          rcases hem : rstrip (mapRuns φ rest) with _ | ⟨d2, r2⟩
          · exact absurd hem hne
          · rw [← hem, hmr]
            rcases hX : mapRuns φ (d :: r) with _ | ⟨e, t⟩
            · exact absurd hX (mapRuns_ne_nil hφ (by simp))
            · rfl

theorem mapRuns_rstrip {φ : Str → Str} (hφ : GoodPhi φ) (cs : Str) :
    mapRuns φ (rstrip cs) = rstrip (mapRuns φ cs) :=
  mapRuns_rstrip_bounded hφ cs.length cs Nat.le.refl

theorem pyStrip_idem (l : Str) : pyStrip (pyStrip l) = pyStrip l := by
  unfold pyStrip
  have hhead : ∀ d, (rstrip (l.dropWhile isSpace)).head? = some d → isSpace d = false := by
    rcases rstrip_head? (l.dropWhile isSpace) with h | h
    · rw [h]; intro d hd; simp at hd
    · rw [h]; intro d hd; exact head_dropWhile_false hd
  rw [dropWhile_noop hhead, rstrip_idem]

theorem goodPhi_mumbai : GoodPhi (phiOf ("mumbai".toList) ("mumbai".toList)) :=
  goodPhi_phiOf _ _ (by decide) (by decide)

theorem goodPhi_delhi : GoodPhi (phiOf ("delhi".toList) ("delhi".toList)) :=
  goodPhi_phiOf _ _ (by decide) (by decide)

theorem goodPhi_bangal : GoodPhi (phiOf ("bangal".toList) ("bengaluru".toList)) :=
  goodPhi_phiOf _ _ (by decide) (by decide)

theorem goodPhi_noida : GoodPhi (phiOf ("noida".toList) ("noida".toList)) :=
  goodPhi_phiOf _ _ (by decide) (by decide)

/-- The per-run action of the whole of `replace_common_locations` (before
the final strip): the four needle substitutions in dictionary order. -/
def phiTotal (r : Str) : Str :=
  phiOf ("noida".toList) ("noida".toList)
    (phiOf ("bangal".toList) ("bengaluru".toList)
      (phiOf ("delhi".toList) ("delhi".toList)
        (phiOf ("mumbai".toList) ("mumbai".toList) r)))

theorem goodPhi_phiTotal : GoodPhi phiTotal := by
  intro r hr hrw
  unfold phiTotal
  exact goodPhi_comp (goodPhi_comp (goodPhi_comp goodPhi_mumbai goodPhi_delhi) goodPhi_bangal)
    goodPhi_noida r hr hrw

theorem phiTotal_idem (r : Str) : phiTotal (phiTotal r) = phiTotal r := by
  unfold phiTotal phiOf
  by_cases h1 : containsSub (['m', 'u', 'm', 'b', 'a', 'i'] : Str) r = true
  · simp +decide [h1]
  · simp only [Bool.not_eq_true] at h1
    by_cases h2 : containsSub (['d', 'e', 'l', 'h', 'i'] : Str) r = true
    · simp +decide [h1, h2]
    · simp only [Bool.not_eq_true] at h2
      by_cases h3 : containsSub (['b', 'a', 'n', 'g', 'a', 'l'] : Str) r = true
      · simp +decide [h1, h2, h3]
      · simp only [Bool.not_eq_true] at h3
        by_cases h4 : containsSub (['n', 'o', 'i', 'd', 'a'] : Str) r = true
        · simp +decide [h1, h2, h3, h4]
        · simp only [Bool.not_eq_true] at h4
          simp [h1, h2, h3, h4]

theorem rcl_core_eq (cs : Str) :
    subWordContain ("noida".toList) ("noida".toList)
      (subWordContain ("bangal".toList) ("bengaluru".toList)
        (subWordContain ("delhi".toList) ("delhi".toList)
          (subWordContain ("mumbai".toList) ("mumbai".toList) cs))) =
      mapRuns phiTotal cs := by
  unfold subWordContain
  rw [mapRuns_comp goodPhi_mumbai]
  rw [mapRuns_comp (goodPhi_comp goodPhi_mumbai goodPhi_delhi)]
  rw [mapRuns_comp (goodPhi_comp (goodPhi_comp goodPhi_mumbai goodPhi_delhi) goodPhi_bangal)]
  rfl

/-- C10: `replace_common_locations` is idempotent: applying it twice
yields the same result as applying it once, for every input string. -/
theorem c10_replace_common_locations_idempotent (s : Str) :
    replace_common_locations (replace_common_locations s) = replace_common_locations s := by
  unfold replace_common_locations
  rw [rcl_core_eq s, rcl_core_eq (pyStrip (mapRuns phiTotal s))]
  unfold pyStrip
  rw [mapRuns_rstrip goodPhi_phiTotal, mapRuns_dropWhile_isSpace goodPhi_phiTotal,
    mapRuns_comp goodPhi_phiTotal,
    mapRuns_congr (fun r _ _ => phiTotal_idem r)]
  have := pyStrip_idem (mapRuns phiTotal s)
  unfold pyStrip at this
  exact this

/-!
Scraping, cleaning and analysis (naukri_scraper.py lines 27-274).
-/

/-- One job card of a result page, as seen through the Selenium calls of
the inner loop (lines 58-74).  `none` in the first four fields means the
element lookup raises `NoSuchElementException`; `none` in `salary` means
`find_elements` returns an empty list; `none` in `skills` means the
`tags-gt` lookup raises. -/
structure JobTuple where
  role : Option Str
  company : Option Str
  location : Option Str
  exp : Option Str
  salary : Option Str
  skills : Option (List Str)
  deriving DecidableEq

/-- The dictionary built by `scrape_naukri_jobs` (lines 38-46). -/
structure Jobs where
  job_no : List Nat
  roles : List Str
  companies : List Str
  locations : List Str
  experience : List Str
  salaries : List Str
  skills : List Str
  deriving DecidableEq

def emptyJobs : Jobs := ⟨[], [], [], [], [], [], []⟩

def naStr : Str := "NA".toList

/-- Python `",".join(tags)`. -/
def joinComma (tags : List Str) : Str := List.intercalate [','] tags

/-- One iteration of the inner loop of `scrape_naukri_jobs` (lines
54-85): when role, company, location and experience are all found, one
entry is appended to every list, with a missing salary element or a
missing skills list recorded as "NA"; when any of the four lookups
raises, the job is skipped and nothing is appended. -/
def processTuple (jobno : Nat) (jt : JobTuple) (acc : Jobs) : Jobs :=
  match jt.role, jt.company, jt.location, jt.exp with
  | some r, some c, some l, some e =>
    { job_no := acc.job_no ++ [jobno]
      roles := acc.roles ++ [r]
      companies := acc.companies ++ [c]
      locations := acc.locations ++ [l]
      experience := acc.experience ++ [e]
      salaries := acc.salaries ++ [jt.salary.getD naStr]
      skills := acc.skills ++ [match jt.skills with
        | some tags => joinComma tags
        | none => naStr] }
  | _, _, _, _ => acc

/-- One page of the outer loop (lines 48-85); job numbers are
`i * len(lst) + index + 1`. -/
def scrapePage (i : Nat) (tuples : List JobTuple) (acc : Jobs) : Jobs :=
  tuples.enum.foldl (fun a p => processTuple (i * tuples.length + p.1 + 1) p.2 a) acc

/-- `scrape_naukri_jobs` (lines 27-86) over the job tuples of the
`num_pages` visited pages. -/
def scrape_naukri_jobs (pages : List (List JobTuple)) : Jobs :=
  pages.enum.foldl (fun a p => scrapePage p.1 p.2 a) emptyJobs

/-- The raw dataframe after `astype(str).str.lower()` (line 99): every
column, including the integer `job_no` column, as lowercased strings. -/
structure StrFrame where
  job_no : List Str
  roles : List Str
  companies : List Str
  locations : List Str
  experience : List Str
  salaries : List Str
  skills : List Str

/-- The cleaned dataframe: `locations` and `skills` are list columns. -/
structure Frame where
  job_no : List Str
  roles : List Str
  companies : List Str
  locations : List (List Str)
  experience : List Str
  salaries : List Str
  skills : List (List Str)
  deriving DecidableEq

def lacsPat : Str := " lacs pa".toList

def yrsPat : Str := " yrs".toList

/-- `process_job_data` (lines 88-109): lowercase every column as a
string, split the skills and locations strings on commas, and delete
every occurrence of " lacs pa" from salaries and of " yrs" from
experience. -/
def process_job_data (j : Jobs) : Frame :=
  let df0 : StrFrame :=
    { job_no := j.job_no.map (fun n => pyLower ((Nat.repr n).toList))
      roles := j.roles.map pyLower
      companies := j.companies.map pyLower
      locations := j.locations.map pyLower
      experience := j.experience.map pyLower
      salaries := j.salaries.map pyLower
      skills := j.skills.map pyLower }
  { job_no := df0.job_no
    roles := df0.roles
    companies := df0.companies
    skills := df0.skills.map splitOnComma
    locations := df0.locations.map splitOnComma
    salaries := df0.salaries.map (replaceAll lacsPat [])
    experience := df0.experience.map (replaceAll yrsPat []) }

/-- Observable outputs of `main` and the analysis functions. -/
inductive Ev where
  | chromeOpened : Ev
  | driverQuit : Ev
  | printed : Str → Ev
  | csvSaved : Str → Ev
  | statCounts : Str → List (Str × Nat) → Ev
  | statPct : Str → List (Str × Rat) → Ev
  | plotSaved : Str → Ev
  | distinctPrinted : Str → List Str → Ev
  deriving DecidableEq

/-- The distinct values of a column in order of first occurrence, as
pandas `Series.unique` lists them. -/
def uniqueFirst : List Str → List Str
  | [] => []
  | x :: rest => x :: uniqueFirst (rest.filter (fun y => decide (y ≠ x)))
termination_by xs => xs.length
decreasing_by
  simp only [List.length_cons]
  exact Nat.lt_succ_of_le (List.length_filter_le _ _)

/-- The number of rows of a column holding exactly the value `v`. -/
def countVal (v : Str) : List Str → Nat
  | [] => 0
  | x :: rest => (if x = v then 1 else 0) + countVal v rest

/-- `value_counts()` of a column: each distinct value with the number of
rows holding exactly that value.  (pandas lists the pairs sorted by
decreasing count; the claims under study do not depend on that order, so
the model lists the pairs in order of first occurrence.) -/
def valueCounts (xs : List Str) : List (Str × Nat) :=
  (uniqueFirst xs).map (fun v => (v, countVal v xs))

/-- `(value_counts / len(column)) * 100` (lines 117-118, 140-141,
193-194): the percentage of each distinct value.  The script computes
this in IEEE double precision; the model uses exact rationals. -/
def percentages (xs : List Str) : List (Str × Rat) :=
  (valueCounts xs).map (fun p => (p.1, ((p.2 : Rat) / (xs.length : Rat)) * 100))

def expField : Str := "experience".toList

def salField : Str := "salaries".toList

def locField : Str := "locations".toList

def skillsField : Str := "skills".toList

def expPlotName : Str := "experience_range.png".toList

def salPlotName : Str := "salaries_range.png".toList

def locPlotName : Str := "job_location_counts.png".toList

def locWcName : Str := "location_wordcloud.png".toList

def skillsWcName : Str := "skills_wordcloud.png".toList

def csvName : Str := "Naukri_SDET.csv".toList

/-- `analyze_experience` (lines 111-132), as the sequence of its
outputs: the printed counts, the printed percentages, and the saved bar
chart of the ten most frequent categories. -/
def analyze_experience (df : Frame) : List Ev :=
  [Ev.statCounts expField (valueCounts df.experience),
   Ev.statPct expField (percentages df.experience),
   Ev.plotSaved expPlotName]

/-- `analyze_salary` (lines 134-155). -/
def analyze_salary (df : Frame) : List Ev :=
  [Ev.statCounts salField (valueCounts df.salaries),
   Ev.statPct salField (percentages df.salaries),
   Ev.plotSaved salPlotName]

/-- The location values that `clean_and_analyze_locations` (lines
157-216) aggregates: the rows of the exploded list column, mapped
through `replace_location_patterns` and then through
`replace_common_locations`. -/
def locationValues (df : Frame) : List Str :=
  ((df.locations.flatten).map replace_location_patterns).map replace_common_locations

/-- `clean_and_analyze_locations` (lines 157-216): counts, percentages,
bar chart and word cloud over the normalised exploded locations. -/
def clean_and_analyze_locations (df : Frame) : List Ev :=
  [Ev.statCounts locField (valueCounts (locationValues df)),
   Ev.statPct locField (percentages (locationValues df)),
   Ev.plotSaved locPlotName,
   Ev.plotSaved locWcName]

/-- The skill values that `analyze_skills` (lines 218-235) iterates
over: the rows of the exploded skills column, taken verbatim. -/
def skillValues (df : Frame) : List Str := df.skills.flatten

/-- `analyze_skills` (lines 218-235): the printed distinct skill values
(first occurrence of each, as pandas `unique` lists them) and the saved
word cloud; no counts and no percentages are produced. -/
def analyze_skills (df : Frame) : List Ev :=
  [Ev.distinctPrinted skillsField (uniqueFirst (skillValues df)),
   Ev.plotSaved skillsWcName]

/-- Exception switches: one per library call of `main` that the model
lets raise.  A true flag means that call raises at that point of the
run. -/
structure RunCfg where
  failChrome : Bool
  failMaximize : Bool
  failScrape : Bool
  failProcess : Bool
  failToCsv : Bool
  failAExp : Bool
  failASal : Bool
  failALoc : Bool
  failASkills : Bool

/-- The run in which no call raises. -/
def cfg0 : RunCfg := ⟨false, false, false, false, false, false, false, false, false⟩

def msgScraping : Str := "Scraping Naukri.com for SDET job data...".toList

def msgScrapeDone : Str := "Scraping complete. Processing data...".toList

def msgNoData : Str := "No job data scraped. Exiting.".toList

/-- The confirmation printed after `to_csv` (line 252); the emoji prefix
of the original print is omitted from the model. -/
def msgCsvNote : Str := "Raw data saved as Naukri_SDET.csv".toList

def msgAnalyzeExp : Str := "\nAnalyzing Experience...".toList

def msgAnalyzeSal : Str := "\nAnalyzing Salary...".toList

def msgAnalyzeLoc : Str := "\nAnalyzing Locations...".toList

def msgAnalyzeSkills : Str := "\nAnalyzing Skills...".toList

def msgDone : Str := "\nAnalysis complete. Check generated PNG files for plots.".toList

/-- The analysis section of `main` (lines 255-267).  A true `fail` flag
means that analysis call raises before producing output; execution then
jumps to the `finally` block, so later stages never run. -/
def analysesTrace (cfg : RunCfg) (df : Frame) : List Ev :=
  Ev.printed msgAnalyzeExp ::
    (if cfg.failAExp then []
     else analyze_experience df ++
       (Ev.printed msgAnalyzeSal ::
         (if cfg.failASal then []
          else analyze_salary df ++
            (Ev.printed msgAnalyzeLoc ::
              (if cfg.failALoc then []
               else clean_and_analyze_locations df ++
                 (Ev.printed msgAnalyzeSkills ::
                   (if cfg.failASkills then []
                    else analyze_skills df ++ [Ev.printed msgDone])))))))

/-- The body of the `try` block of `main` (lines 241-267) after the
driver is initialised: scrape, early return on an empty scrape, clean,
write the CSV file, then the four analyses, each stage consuming the
output of the one before. -/
def mainBody (cfg : RunCfg) (pages : List (List JobTuple)) : List Ev :=
  Ev.printed msgScraping ::
    (if cfg.failScrape then []
     else
       Ev.printed msgScrapeDone ::
         (if (scrape_naukri_jobs pages).job_no.isEmpty then [Ev.printed msgNoData]
          else if cfg.failProcess then []
          else if cfg.failToCsv then []
          else
            Ev.csvSaved csvName :: Ev.printed msgCsvNote ::
              analysesTrace cfg (process_job_data (scrape_naukri_jobs pages))))

/-- `main` (lines 237-274) as an event trace.  `failChrome` and
`failMaximize` are exceptions inside `initialize_driver` (lines 11-15):
when `webdriver.Chrome()` itself raises, no session is opened; when
`maximize_window()` raises, the session is already open but
`initialize_driver` never returns, so the local `driver` of `main` stays
`None` and the `finally` block does not quit the session.  On every path
on which `initialize_driver` returned, the `finally` block closes the
driver.  The error print of the `except` clause is not modelled as an
event. -/
def mainTrace (cfg : RunCfg) (pages : List (List JobTuple)) : List Ev :=
  if cfg.failChrome then []
  else if cfg.failMaximize then [Ev.chromeOpened]
  else Ev.chromeOpened :: (mainBody cfg pages ++ [Ev.driverQuit])

/-- A concrete scraped page: one job card with all four essential
elements present, no salary element, and a two-element skills list. -/
def jt1 : JobTuple :=
  { role := some ("SDET Lead".toList)
    company := some ("Acme Corp".toList)
    location := some ("Pune, Navi Mumbai".toList)
    exp := some ("2-5 Yrs".toList)
    salary := none
    skills := some [("Selenium".toList), ("Java (Core)".toList)] }

def pages1 : List (List JobTuple) := [[jt1]]

example : (scrape_naukri_jobs pages1).job_no = [1] := by decide
example : (scrape_naukri_jobs pages1).skills = [("Selenium,Java (Core)".toList)] := by decide
example : (scrape_naukri_jobs pages1).salaries = [("NA".toList)] := by decide

/-- C6: on every row of the raw data, `process_job_data` lowercases
every field (after conversion to a string), splits the skills and
locations strings on commas into lists, deletes every occurrence of
" lacs pa" from the salaries field and every occurrence of " yrs" from
the experience field, and alters no other field: job_no, roles and
companies are only lowercased. -/
theorem c6_process_job_data (j : Jobs) :
    (process_job_data j).job_no = j.job_no.map (fun n => pyLower ((Nat.repr n).toList)) ∧
    (process_job_data j).roles = j.roles.map pyLower ∧
    (process_job_data j).companies = j.companies.map pyLower ∧
    (process_job_data j).locations = j.locations.map (fun s => splitOnComma (pyLower s)) ∧
    (process_job_data j).skills = j.skills.map (fun s => splitOnComma (pyLower s)) ∧
    (process_job_data j).salaries = j.salaries.map (fun s => replaceAll lacsPat [] (pyLower s)) ∧
    (process_job_data j).experience = j.experience.map (fun s => replaceAll yrsPat [] (pyLower s)) := by
  unfold process_job_data
  refine ⟨rfl, rfl, rfl, ?_, ?_, ?_, ?_⟩ <;> simp [List.map_map, Function.comp]

example : (process_job_data (scrape_naukri_jobs pages1)).skills =
    [[("selenium".toList), ("java (core)".toList)]] := by decide
example : (process_job_data (scrape_naukri_jobs pages1)).experience = [("2-5".toList)] := by
  have h : scrape_naukri_jobs pages1 =
      { job_no := [1], roles := [("SDET Lead".toList)], companies := [("Acme Corp".toList)],
        locations := [("Pune, Navi Mumbai".toList)], experience := [("2-5 Yrs".toList)],
        salaries := [naStr], skills := [("Selenium,Java (Core)".toList)] } := by decide
  rw [h]
  simp +decide [process_job_data, pyLower, replaceAll, yrsPat]

theorem mem_uniqueFirst_bounded :
    ∀ n (xs : List Str), xs.length ≤ n → ∀ v : Str, v ∈ uniqueFirst xs ↔ v ∈ xs := by
  intro n
  induction n with
  | zero =>
    intro xs hlen v
    have : xs = [] := List.eq_nil_of_length_eq_zero (Nat.le_zero.mp hlen)
    subst this
    rw [uniqueFirst]
  | succ n ih =>
    intro xs hlen v
    cases xs with
    | nil => rw [uniqueFirst]
    | cons x rest =>
      rw [uniqueFirst]
      have hlen2 : (rest.filter (fun y => decide (y ≠ x))).length ≤ n := by
        have hfs : (rest.filter (fun y => decide (y ≠ x))).length ≤ rest.length :=
          List.length_filter_le _ _
        simp only [List.length_cons] at hlen
        omega
      constructor
      · intro hv
        rcases List.mem_cons.mp hv with hv | hv
        · exact hv ▸ List.mem_cons_self ..
        · have := (ih _ hlen2 v).mp hv
          exact List.mem_cons_of_mem _ (List.mem_filter.mp this).1
      · intro hv
        rcases List.mem_cons.mp hv with hv | hv
        · exact hv ▸ List.mem_cons_self ..
        · by_cases hvx : v = x
          · exact hvx ▸ List.mem_cons_self ..
          · refine List.mem_cons_of_mem _ ((ih _ hlen2 v).mpr ?_)
            exact List.mem_filter.mpr ⟨hv, by simpa using hvx⟩

theorem mem_uniqueFirst {xs : List Str} {v : Str} : v ∈ uniqueFirst xs ↔ v ∈ xs :=
  mem_uniqueFirst_bounded xs.length xs Nat.le.refl v

theorem countVal_filter_ne {v x : Str} (hvx : v ≠ x) (rest : List Str) :
    countVal v (rest.filter (fun y => decide (y ≠ x))) = countVal v rest := by
  induction rest with
  | nil => rfl
  | cons y r ih =>
    rw [List.filter_cons]
    by_cases hyx : y = x
    · have hd : decide (y ≠ x) = false := by simp [hyx]
      rw [hd]
      simp only [Bool.false_eq_true, if_false]
      rw [ih, countVal]
      have hyv : ¬(y = v) := fun h => hvx (h ▸ hyx)
      simp [hyv]
    · have hd : decide (y ≠ x) = true := by simpa using hyx
      rw [hd]
      simp only [if_true]
      rw [countVal, countVal, ih]

theorem countVal_filter_len (x : Str) (rest : List Str) :
    countVal x rest + (rest.filter (fun y => decide (y ≠ x))).length = rest.length := by
  induction rest with
  | nil => rfl
  | cons y r ih =>
    rw [countVal, List.filter_cons]
    by_cases hyx : y = x
    · have hd : decide (y ≠ x) = false := by simp [hyx]
      rw [hd]
      simp only [Bool.false_eq_true, if_false, hyx, if_true, List.length_cons]
      omega
    · have hd : decide (y ≠ x) = true := by simpa using hyx
      rw [hd]
      simp only [if_true, List.length_cons, hyx, if_false]
      omega

theorem sum_countVal_uniqueFirst_bounded :
    ∀ n (xs : List Str), xs.length ≤ n →
      ((uniqueFirst xs).map (fun v => countVal v xs)).sum = xs.length := by
  intro n
  induction n with
  | zero =>
    intro xs hlen
    have : xs = [] := List.eq_nil_of_length_eq_zero (Nat.le_zero.mp hlen)
    subst this
    rw [uniqueFirst]
    rfl
  | succ n ih =>
    intro xs hlen
    cases xs with
    | nil => rw [uniqueFirst]; rfl
    | cons x rest =>
      have hlen2 : (rest.filter (fun y => decide (y ≠ x))).length ≤ n := by
        have hfs : (rest.filter (fun y => decide (y ≠ x))).length ≤ rest.length :=
          List.length_filter_le _ _
        simp only [List.length_cons] at hlen
        omega
      rw [uniqueFirst, List.map_cons, List.sum_cons]
      have hmap : (uniqueFirst (rest.filter (fun y => decide (y ≠ x)))).map
            (fun v => countVal v (x :: rest)) =
          (uniqueFirst (rest.filter (fun y => decide (y ≠ x)))).map
            (fun v => countVal v (rest.filter (fun y => decide (y ≠ x)))) := by
        refine List.map_congr_left (fun v hv => ?_)
        have hvf : v ∈ rest.filter (fun y => decide (y ≠ x)) := mem_uniqueFirst.mp hv
        have hvx : v ≠ x := by
          have := (List.mem_filter.mp hvf).2
          simpa using this
        rw [countVal]
        have hxv : ¬(x = v) := fun h => hvx (Eq.symm h)
        rw [countVal_filter_ne hvx]
        simp [hxv]
      rw [hmap, ih _ hlen2]
      rw [countVal, if_pos rfl, List.length_cons, ← countVal_filter_len x rest]
      omega

theorem sum_countVal_uniqueFirst (xs : List Str) :
    ((uniqueFirst xs).map (fun v => countVal v xs)).sum = xs.length :=
  sum_countVal_uniqueFirst_bounded xs.length xs Nat.le.refl

/-- C7: every aggregate statistic printed is a frequency count: a pair
`(v, c)` appears in `valueCounts xs` exactly when `v` occurs in the
column `xs` and `c` is the number of rows of `xs` holding exactly `v`;
and the three analysis routines print `valueCounts` of their column
(experience, salaries, and the normalised exploded locations). -/
theorem c7_counts_are_frequencies :
    (∀ (xs : List Str) (v : Str) (c : Nat),
        (v, c) ∈ valueCounts xs ↔ v ∈ xs ∧ c = countVal v xs) ∧
    (∀ df : Frame,
        Ev.statCounts expField (valueCounts df.experience) ∈ analyze_experience df ∧
        Ev.statCounts salField (valueCounts df.salaries) ∈ analyze_salary df ∧
        Ev.statCounts locField (valueCounts (locationValues df)) ∈
          clean_and_analyze_locations df) := by
  constructor
  · intro xs v c
    unfold valueCounts
    rw [List.mem_map]
    constructor
    · rintro ⟨u, hu, he⟩
      rw [Prod.mk.injEq] at he
      obtain ⟨rfl, rfl⟩ := he
      exact ⟨mem_uniqueFirst.mp hu, rfl⟩
    · rintro ⟨hv, hc⟩
      exact ⟨v, mem_uniqueFirst.mpr hv, by rw [hc]⟩
  · intro df
    refine ⟨?_, ?_, ?_⟩ <;>
      simp [analyze_experience, analyze_salary, clean_and_analyze_locations]

theorem sum_cast_counts (xs : List Str) :
    ((uniqueFirst xs).map (fun v => (countVal v xs : Rat))).sum = (xs.length : Rat) := by
  calc ((uniqueFirst xs).map (fun v => (countVal v xs : Rat))).sum
      = (((uniqueFirst xs).map (fun v => countVal v xs)).map (fun c : Nat => (c : Rat))).sum := by
        rw [List.map_map]; rfl
    _ = (((uniqueFirst xs).map (fun v => countVal v xs)).sum : Rat) := (Nat.cast_list_sum _).symm
    _ = (xs.length : Rat) := by rw [sum_countVal_uniqueFirst]

/-- C3: percentage aggregation is correct: for every non-empty column,
the percentage reported for a distinct value is its frequency count
divided by the number of rows of the column, times 100, and the
percentages over all distinct values sum to exactly 100; the three
analysis routines print `percentages` of their column (experience,
salaries, and the normalised exploded locations).  Real arithmetic is
modelled with exact rationals in place of IEEE doubles. -/
theorem c3_percentages_correct :
    (∀ xs : List Str, xs ≠ [] →
        (∀ p ∈ percentages xs, p.2 = ((countVal p.1 xs : Rat) / (xs.length : Rat)) * 100) ∧
        ((percentages xs).map Prod.snd).sum = 100) ∧
    (∀ df : Frame,
        Ev.statPct expField (percentages df.experience) ∈ analyze_experience df ∧
        Ev.statPct salField (percentages df.salaries) ∈ analyze_salary df ∧
        Ev.statPct locField (percentages (locationValues df)) ∈
          clean_and_analyze_locations df) := by
  constructor
  · intro xs hxs
    constructor
    · intro p hp
      unfold percentages valueCounts at hp
      rw [List.map_map, List.mem_map] at hp
      obtain ⟨v, hv, he⟩ := hp
      rw [← he]
      simp [Function.comp]
    · have h1 : (percentages xs).map Prod.snd =
          (uniqueFirst xs).map (fun v => ((countVal v xs : Rat) / (xs.length : Rat)) * 100) := by
        unfold percentages valueCounts
        rw [List.map_map, List.map_map]
        rfl
      rw [h1]
      have h2 : (uniqueFirst xs).map
            (fun v => ((countVal v xs : Rat) / (xs.length : Rat)) * 100) =
          (uniqueFirst xs).map
            (fun v => (countVal v xs : Rat) * ((xs.length : Rat)⁻¹ * 100)) := by
        refine List.map_congr_left (fun v _ => ?_)
        rw [div_eq_mul_inv, mul_assoc]
      rw [h2, List.sum_map_mul_right, sum_cast_counts]
      have hn : (xs.length : Rat) ≠ 0 := by
        have h0 : xs.length ≠ 0 := by
          intro h0
          exact hxs (List.eq_nil_of_length_eq_zero h0)
        exact_mod_cast h0
      rw [← mul_assoc, mul_inv_cancel₀ hn, one_mul]
  · intro df
    refine ⟨?_, ?_, ?_⟩ <;>
      simp [analyze_experience, analyze_salary, clean_and_analyze_locations]

/-- Witness for C3 at the concrete column ["a", "b", "a"]. -/
theorem c3_percentages_correct_witness :
    ((percentages [("a".toList), ("b".toList), ("a".toList)]).map Prod.snd).sum = 100 :=
  (c3_percentages_correct.1 [("a".toList), ("b".toList), ("a".toList)] (by decide)).2

/-- All seven lists of the scraped dictionary have the same length. -/
def balanced (J : Jobs) : Prop :=
  J.roles.length = J.job_no.length ∧ J.companies.length = J.job_no.length ∧
  J.locations.length = J.job_no.length ∧ J.experience.length = J.job_no.length ∧
  J.salaries.length = J.job_no.length ∧ J.skills.length = J.job_no.length

theorem processTuple_balanced (n : Nat) (jt : JobTuple) (acc : Jobs)
    (h : balanced acc) : balanced (processTuple n jt acc) := by
  obtain ⟨h1, h2, h3, h4, h5, h6⟩ := h
  unfold processTuple
  rcases jt.role with _ | r <;> rcases jt.company with _ | c <;>
    rcases jt.location with _ | l <;> rcases jt.exp with _ | e <;>
    simp [balanced, h1, h2, h3, h4, h5, h6]

theorem foldl_balanced {α : Type} (f : Jobs → α → Jobs)
    (hf : ∀ (a : α) (acc : Jobs), balanced acc → balanced (f acc a)) :
    ∀ (l : List α) (acc : Jobs), balanced acc → balanced (l.foldl f acc) := by
  intro l
  induction l with
  | nil => intro acc h; exact h
  | cons x xs ih => intro acc h; exact ih _ (hf x acc h)

theorem scrape_balanced (pages : List (List JobTuple)) :
    balanced (scrape_naukri_jobs pages) := by
  unfold scrape_naukri_jobs
  refine foldl_balanced _ (fun p acc hacc => ?_) _ emptyJobs (by simp [balanced, emptyJobs])
  unfold scrapePage
  exact foldl_balanced _ (fun q acc2 hacc2 => processTuple_balanced _ _ _ hacc2) _ acc hacc

/-- C8: the dictionary returned by `scrape_naukri_jobs` always has its
seven lists of equal length; a job tuple with role, company, location or
experience missing contributes no entry to any list, while a tuple with
all four present contributes exactly one entry to every list, with a
missing salary element or skills list recorded as the string "NA". -/
theorem c8_scrape_invariant :
    (∀ pages : List (List JobTuple),
        (scrape_naukri_jobs pages).roles.length = (scrape_naukri_jobs pages).job_no.length ∧
        (scrape_naukri_jobs pages).companies.length = (scrape_naukri_jobs pages).job_no.length ∧
        (scrape_naukri_jobs pages).locations.length = (scrape_naukri_jobs pages).job_no.length ∧
        (scrape_naukri_jobs pages).experience.length = (scrape_naukri_jobs pages).job_no.length ∧
        (scrape_naukri_jobs pages).salaries.length = (scrape_naukri_jobs pages).job_no.length ∧
        (scrape_naukri_jobs pages).skills.length = (scrape_naukri_jobs pages).job_no.length) ∧
    (∀ (n : Nat) (jt : JobTuple) (acc : Jobs),
        ((jt.role = none ∨ jt.company = none ∨ jt.location = none ∨ jt.exp = none) →
          processTuple n jt acc = acc) ∧
        (∀ r c l e, jt.role = some r → jt.company = some c → jt.location = some l →
          jt.exp = some e →
          processTuple n jt acc =
            { job_no := acc.job_no ++ [n]
              roles := acc.roles ++ [r]
              companies := acc.companies ++ [c]
              locations := acc.locations ++ [l]
              experience := acc.experience ++ [e]
              salaries := acc.salaries ++ [jt.salary.getD naStr]
              skills := acc.skills ++ [match jt.skills with
                | some tags => joinComma tags
                | none => naStr] })) := by
  constructor
  · exact fun pages => scrape_balanced pages
  · intro n jt acc
    constructor
    · intro hmiss
      unfold processTuple
      rcases hmiss with hm | hm | hm | hm <;> rw [hm] <;>
        rcases jt.role with _ | r <;> rcases jt.company with _ | c <;>
        rcases jt.location with _ | l <;> rcases jt.exp with _ | e <;> rfl
    · intro r c l e hr hc hl he
      unfold processTuple
      rw [hr, hc, hl, he]

/-- Witness for C8 at concrete inputs: a tuple with a missing company is
skipped, and the complete tuple `jt1` appends one entry to every list of
the empty accumulator. -/
theorem c8_scrape_invariant_witness :
    processTuple 7
      { role := some ("qa".toList), company := none, location := some ("pune".toList),
        exp := some ("1-2".toList), salary := none, skills := none } emptyJobs = emptyJobs ∧
    processTuple 1 jt1 emptyJobs =
      { job_no := [1]
        roles := [("SDET Lead".toList)]
        companies := [("Acme Corp".toList)]
        locations := [("Pune, Navi Mumbai".toList)]
        experience := [("2-5 Yrs".toList)]
        salaries := [naStr]
        skills := [("Selenium,Java (Core)".toList)] } := by
  constructor
  · exact (c8_scrape_invariant.2 7 _ emptyJobs).1 (Or.inr (Or.inl rfl))
  · have h := (c8_scrape_invariant.2 1 jt1 emptyJobs).2
      ("SDET Lead".toList) ("Acme Corp".toList) ("Pune, Navi Mumbai".toList)
      ("2-5 Yrs".toList) rfl rfl rfl rfl
    rw [h]
    decide

/-- True for events that print per-category statistics (counts or
percentages) for the column named `f`. -/
def isStatsOf (f : Str) : Ev → Bool
  | Ev.statCounts g _ => g == f
  | Ev.statPct g _ => g == f
  | _ => false

theorem analyze_experience_no_skills_stats (df : Frame) :
    (analyze_experience df).all (fun e => !(isStatsOf skillsField e)) = true := by
  simp +decide [analyze_experience, isStatsOf, expField, skillsField]

theorem analyze_salary_no_skills_stats (df : Frame) :
    (analyze_salary df).all (fun e => !(isStatsOf skillsField e)) = true := by
  simp +decide [analyze_salary, isStatsOf, salField, skillsField]

theorem locations_no_skills_stats (df : Frame) :
    (clean_and_analyze_locations df).all (fun e => !(isStatsOf skillsField e)) = true := by
  simp +decide [clean_and_analyze_locations, isStatsOf, locField, skillsField]

theorem analyze_skills_no_skills_stats (df : Frame) :
    (analyze_skills df).all (fun e => !(isStatsOf skillsField e)) = true := by
  simp [analyze_skills, isStatsOf]

theorem analysesTrace_no_skills_stats (cfg : RunCfg) (df : Frame) :
    (analysesTrace cfg df).all (fun e => !(isStatsOf skillsField e)) = true := by
  unfold analysesTrace
  split_ifs <;>
    simp only [List.all_cons, List.all_append, List.all_nil,
      analyze_experience_no_skills_stats, analyze_salary_no_skills_stats,
      locations_no_skills_stats, analyze_skills_no_skills_stats,
      Bool.and_true, Bool.true_and, Bool.and_self] <;>
    simp [isStatsOf]

/-- No run of `main` ever emits counts or percentages for the skills
column: `analyze_skills` prints only the distinct values and saves a
word cloud. -/
theorem no_skills_stats (cfg : RunCfg) (pages : List (List JobTuple)) :
    (mainTrace cfg pages).all (fun e => !(isStatsOf skillsField e)) = true := by
  unfold mainTrace mainBody
  split_ifs <;>
    simp only [List.all_cons, List.all_append, List.all_nil,
      analysesTrace_no_skills_stats,
      Bool.and_true, Bool.true_and, Bool.and_self] <;>
    simp [isStatsOf]

/-- C1 (amended): before aggregate analysis the program applies the
regex-based normalization to the location field only: every exploded
location value is mapped through `replace_location_patterns` and
`replace_common_locations`, while the skill values reach
`analyze_skills` verbatim, with no normalization of any kind. -/
theorem c1_normalization_location_only (df : Frame) :
    locationValues df = df.locations.flatten.map
      (fun s => replace_common_locations (replace_location_patterns s)) ∧
    skillValues df = df.skills.flatten ∧
    Ev.distinctPrinted skillsField (uniqueFirst (skillValues df)) ∈ analyze_skills df := by
  refine ⟨?_, rfl, by simp [analyze_skills]⟩
  unfold locationValues
  rw [List.map_map]
  rfl

/-- C1 counterexample: on the concrete dataset `pages1` the scraped
skill value "java (core)" reaches the skills analysis verbatim, although
the regex normalization of this program would have rewritten it to
"java": no regex-based normalization is applied to the skill field. -/
theorem c1_counterexample :
    analyze_skills (process_job_data (scrape_naukri_jobs pages1)) =
      [Ev.distinctPrinted skillsField [("selenium".toList), ("java (core)".toList)],
       Ev.plotSaved skillsWcName] ∧
    replace_location_patterns ("java (core)".toList) = ("java".toList) ∧
    ("java".toList : Str) ≠ ("java (core)".toList) := by
  refine ⟨?_, ?_, by decide⟩
  · have hsv : skillValues (process_job_data (scrape_naukri_jobs pages1)) =
        [("selenium".toList), ("java (core)".toList)] := by decide
    unfold analyze_skills
    rw [hsv]
    simp +decide [uniqueFirst]
  · simp +decide [replace_location_patterns, subParen, subHybrid, subNew, removeAllSpace,
      subSlashEnd, pyStrip, rstrip, isSpace, isWordChar, lastIdxOf, List.filter,
      List.dropWhile, List.takeWhile]

/-- C2 (amended): for every non-empty scraped dataset, the no-exception
run produces per-category counts and percentages for experience, salary
and location, and saves plot image files for all four fields (bar charts
for experience, salary and location, word clouds for location and
skills); for skills it prints only the distinct values and saves the
word cloud, producing no counts and no percentages. -/
theorem c2_outputs (pages : List (List JobTuple))
    (h : (scrape_naukri_jobs pages).job_no ≠ []) :
    Ev.statCounts expField
        (valueCounts (process_job_data (scrape_naukri_jobs pages)).experience) ∈
      mainTrace cfg0 pages ∧
    Ev.statPct expField
        (percentages (process_job_data (scrape_naukri_jobs pages)).experience) ∈
      mainTrace cfg0 pages ∧
    Ev.plotSaved expPlotName ∈ mainTrace cfg0 pages ∧
    Ev.statCounts salField
        (valueCounts (process_job_data (scrape_naukri_jobs pages)).salaries) ∈
      mainTrace cfg0 pages ∧
    Ev.statPct salField
        (percentages (process_job_data (scrape_naukri_jobs pages)).salaries) ∈
      mainTrace cfg0 pages ∧
    Ev.plotSaved salPlotName ∈ mainTrace cfg0 pages ∧
    Ev.statCounts locField
        (valueCounts (locationValues (process_job_data (scrape_naukri_jobs pages)))) ∈
      mainTrace cfg0 pages ∧
    Ev.statPct locField
        (percentages (locationValues (process_job_data (scrape_naukri_jobs pages)))) ∈
      mainTrace cfg0 pages ∧
    Ev.plotSaved locPlotName ∈ mainTrace cfg0 pages ∧
    Ev.plotSaved locWcName ∈ mainTrace cfg0 pages ∧
    Ev.distinctPrinted skillsField
        (uniqueFirst (skillValues (process_job_data (scrape_naukri_jobs pages)))) ∈
      mainTrace cfg0 pages ∧
    Ev.plotSaved skillsWcName ∈ mainTrace cfg0 pages ∧
    Ev.csvSaved csvName ∈ mainTrace cfg0 pages ∧
    (mainTrace cfg0 pages).all (fun e => !(isStatsOf skillsField e)) = true := by
  have hie : (scrape_naukri_jobs pages).job_no.isEmpty = false := by
    cases hj : (scrape_naukri_jobs pages).job_no with
    | nil => exact absurd hj h
    | cons a l => rfl
  refine ⟨?_, ?_, ?_, ?_, ?_, ?_, ?_, ?_, ?_, ?_, ?_, ?_, ?_, no_skills_stats cfg0 pages⟩ <;>
    simp [mainTrace, mainBody, analysesTrace, cfg0, hie, analyze_experience,
      analyze_salary, clean_and_analyze_locations, analyze_skills]

/-- C2 counterexample: the concrete dataset `pages1` is non-empty, yet
the run prints no counts and no percentages for the skills field. -/
theorem c2_counterexample :
    (scrape_naukri_jobs pages1).job_no ≠ [] ∧
    (mainTrace cfg0 pages1).all (fun e => !(isStatsOf skillsField e)) = true :=
  ⟨by decide, no_skills_stats cfg0 pages1⟩

/-- Witness for C2 at the concrete dataset `pages1`. -/
theorem c2_outputs_witness :
    Ev.plotSaved skillsWcName ∈ mainTrace cfg0 pages1 ∧
    Ev.csvSaved csvName ∈ mainTrace cfg0 pages1 :=
  ⟨(c2_outputs pages1 (by decide)).2.2.2.2.2.2.2.2.2.2.2.1,
   (c2_outputs pages1 (by decide)).2.2.2.2.2.2.2.2.2.2.2.2.1⟩

/-- True for all events other than the browser-session events. -/
def notDriverEv : Ev → Bool
  | Ev.chromeOpened => false
  | Ev.driverQuit => false
  | _ => true

theorem analysesTrace_notDriver (cfg : RunCfg) (df : Frame) :
    (analysesTrace cfg df).all notDriverEv = true := by
  unfold analysesTrace
  split_ifs <;>
    simp [List.all_cons, List.all_append, notDriverEv, analyze_experience,
      analyze_salary, clean_and_analyze_locations, analyze_skills]

theorem mainBody_notDriver (cfg : RunCfg) (pages : List (List JobTuple)) :
    (mainBody cfg pages).all notDriverEv = true := by
  unfold mainBody
  split_ifs <;>
    simp only [List.all_cons, List.all_append, List.all_nil, analysesTrace_notDriver,
      Bool.and_true, Bool.true_and, Bool.and_self] <;>
    simp [notDriverEv]

theorem mainBody_no_chromeOpened (cfg : RunCfg) (pages : List (List JobTuple)) :
    Ev.chromeOpened ∉ mainBody cfg pages := by
  intro hm
  have := List.all_eq_true.mp (mainBody_notDriver cfg pages) _ hm
  simp [notDriverEv] at this

theorem mainBody_no_driverQuit (cfg : RunCfg) (pages : List (List JobTuple)) :
    Ev.driverQuit ∉ mainBody cfg pages := by
  intro hm
  have := List.all_eq_true.mp (mainBody_notDriver cfg pages) _ hm
  simp [notDriverEv] at this

/-- C4 (amended): at most one browser session is opened per run; when
`webdriver.Chrome()` itself raises, no session is opened at all; and on
every exit path on which `initialize_driver` returned, the `finally`
block closes the session, with the quit as the final event.  (The
counterexample shows the one exit path this excludes: when
`maximize_window()` raises after the Chrome session is created, the
session is opened but never closed.) -/
theorem c4_driver_lifecycle (cfg : RunCfg) (pages : List (List JobTuple)) :
    (mainTrace cfg pages).count Ev.chromeOpened ≤ 1 ∧
    (cfg.failChrome = true → mainTrace cfg pages = []) ∧
    (cfg.failChrome = false → cfg.failMaximize = false →
      ∃ body, mainTrace cfg pages = Ev.chromeOpened :: (body ++ [Ev.driverQuit]) ∧
        Ev.chromeOpened ∉ body ∧ Ev.driverQuit ∉ body) := by
  by_cases h1 : cfg.failChrome = true
  · have ht : mainTrace cfg pages = [] := by simp [mainTrace, h1]
    refine ⟨by simp [ht], fun _ => ht, fun hc _ => absurd h1 (by simp [hc])⟩
  · simp only [Bool.not_eq_true] at h1
    by_cases h2 : cfg.failMaximize = true
    · have ht : mainTrace cfg pages = [Ev.chromeOpened] := by simp [mainTrace, h1, h2]
      refine ⟨by simp [ht], fun hc => absurd hc (by simp [h1]),
        fun _ hm => absurd h2 (by simp [hm])⟩
    · simp only [Bool.not_eq_true] at h2
      have ht : mainTrace cfg pages =
          Ev.chromeOpened :: (mainBody cfg pages ++ [Ev.driverQuit]) := by
        simp [mainTrace, h1, h2]
      refine ⟨?_, fun hc => absurd hc (by simp [h1]), fun _ _ =>
        ⟨mainBody cfg pages, ht, mainBody_no_chromeOpened cfg pages,
          mainBody_no_driverQuit cfg pages⟩⟩
      rw [ht, List.count_cons_self, List.count_append]
      rw [List.count_eq_zero.mpr (mainBody_no_chromeOpened cfg pages)]
      simp

/-- Witness for C4 at the no-exception run on `pages1`. -/
theorem c4_driver_lifecycle_witness :
    ∃ body, mainTrace cfg0 pages1 = Ev.chromeOpened :: (body ++ [Ev.driverQuit]) ∧
      Ev.chromeOpened ∉ body ∧ Ev.driverQuit ∉ body :=
  (c4_driver_lifecycle cfg0 pages1).2.2 rfl rfl

def cfgMaxFail : RunCfg := ⟨false, true, false, false, false, false, false, false, false⟩

/-- C4 counterexample: on the run in which `maximize_window()` raises,
the Chrome session is opened but the trace contains no quit: the claim
that the session is closed on every exit path of `main` fails. -/
theorem c4_counterexample :
    mainTrace cfgMaxFail pages1 = [Ev.chromeOpened] ∧
    Ev.driverQuit ∉ mainTrace cfgMaxFail pages1 := by
  have h : mainTrace cfgMaxFail pages1 = [Ev.chromeOpened] := by
    simp [mainTrace, cfgMaxFail]
  exact ⟨h, by rw [h]; simp⟩

/-- True for the outputs of the four analysis routines: statistics,
plots and distinct-value listings. -/
def isAnalysisEv : Ev → Bool
  | Ev.statCounts _ _ => true
  | Ev.statPct _ _ => true
  | Ev.plotSaved _ => true
  | Ev.distinctPrinted _ _ => true
  | _ => false

/-- In a decomposition of a trace of the form `pre ++ c :: rest` into
`t1 ++ t2`, if no event of `pre` satisfies `P` but some event of `t1`
does, then `c` itself lies in `t1`: every prefix reaching past an event
with `P` contains `c`. -/
theorem mem_prefix_of_before {pre rest t1 t2 : List Ev} {c : Ev} (P : Ev → Prop)
    (heq : pre ++ c :: rest = t1 ++ t2)
    (hpre : ∀ e ∈ pre, ¬ P e) (hex : ∃ e ∈ t1, P e) : c ∈ t1 := by
  induction t1 generalizing pre with
  | nil =>
    obtain ⟨e, he, _⟩ := hex
    simp at he
  | cons x t1' ih =>
    cases pre with
    | nil =>
      simp only [List.nil_append, List.cons_append, List.cons.injEq] at heq
      exact heq.1 ▸ List.mem_cons_self ..
    | cons p pre' =>
      rw [List.cons_append, List.cons_append, List.cons.injEq] at heq
      obtain ⟨hpx, heq'⟩ := heq
      obtain ⟨e, he, hPe⟩ := hex
      rcases List.mem_cons.mp he with rfl | he'
      · exact absurd hPe (hpx ▸ hpre p (List.mem_cons_self ..))
      · exact List.mem_cons_of_mem _
          (ih heq' (fun q hq => hpre q (List.mem_cons_of_mem _ hq)) ⟨e, he', hPe⟩)

/-- Every run is either cut before the CSV stage, with no analysis
events and no CSV event at all, or its trace starts with the driver
opening, the two scraping prints and the CSV save, in that order. -/
theorem mainTrace_shape (cfg : RunCfg) (pages : List (List JobTuple)) :
    ((mainTrace cfg pages).all (fun e => !(isAnalysisEv e)) = true ∧
      Ev.csvSaved csvName ∉ mainTrace cfg pages) ∨
    (∃ rest, mainTrace cfg pages =
      Ev.chromeOpened :: Ev.printed msgScraping :: Ev.printed msgScrapeDone ::
        Ev.csvSaved csvName :: rest) := by
  unfold mainTrace mainBody
  split_ifs
  · left; simp
  · left; simp [isAnalysisEv]
  · left; simp [isAnalysisEv]
  · left; simp [isAnalysisEv]
  · left; simp [isAnalysisEv]
  · left; simp [isAnalysisEv]
  · right
    exact ⟨Ev.printed msgCsvNote ::
      (analysesTrace cfg (process_job_data (scrape_naukri_jobs pages)) ++ [Ev.driverQuit]),
      by simp⟩

theorem analysesTrace_plots_after_exp (cfg : RunCfg) (df : Frame)
    (hf : cfg.failAExp = true) :
    Ev.plotSaved salPlotName ∉ analysesTrace cfg df ∧
    Ev.plotSaved locPlotName ∉ analysesTrace cfg df ∧
    Ev.plotSaved skillsWcName ∉ analysesTrace cfg df := by
  unfold analysesTrace
  simp [hf]

theorem analysesTrace_plots_after_sal (cfg : RunCfg) (df : Frame)
    (hf : cfg.failASal = true) :
    Ev.plotSaved locPlotName ∉ analysesTrace cfg df ∧
    Ev.plotSaved skillsWcName ∉ analysesTrace cfg df := by
  unfold analysesTrace
  by_cases he : cfg.failAExp = true
  · simp [he]
  · simp only [Bool.not_eq_true] at he
    simp +decide [he, hf, analyze_experience]

theorem analysesTrace_plots_after_loc (cfg : RunCfg) (df : Frame)
    (hf : cfg.failALoc = true) :
    Ev.plotSaved skillsWcName ∉ analysesTrace cfg df := by
  unfold analysesTrace
  by_cases he : cfg.failAExp = true
  · simp [he]
  · simp only [Bool.not_eq_true] at he
    by_cases hs : cfg.failASal = true
    · simp +decide [he, hs, analyze_experience]
    · simp only [Bool.not_eq_true] at hs
      simp +decide [he, hs, hf, analyze_experience, analyze_salary]

theorem c5_absent_scrape (cfg : RunCfg) (pages : List (List JobTuple))
    (hf : cfg.failScrape = true) :
    (mainTrace cfg pages).all (fun e => !(isAnalysisEv e)) = true ∧
    Ev.csvSaved csvName ∉ mainTrace cfg pages := by
  unfold mainTrace mainBody
  split_ifs <;> simp_all [isAnalysisEv]

theorem c5_absent_process (cfg : RunCfg) (pages : List (List JobTuple))
    (hf : cfg.failProcess = true) :
    (mainTrace cfg pages).all (fun e => !(isAnalysisEv e)) = true ∧
    Ev.csvSaved csvName ∉ mainTrace cfg pages := by
  unfold mainTrace mainBody
  split_ifs <;> simp_all [isAnalysisEv]

theorem c5_absent_csv (cfg : RunCfg) (pages : List (List JobTuple))
    (hf : cfg.failToCsv = true) :
    (mainTrace cfg pages).all (fun e => !(isAnalysisEv e)) = true := by
  unfold mainTrace mainBody
  split_ifs <;> simp_all [isAnalysisEv]

theorem c5_absent_after_exp (cfg : RunCfg) (pages : List (List JobTuple))
    (hf : cfg.failAExp = true) :
    Ev.plotSaved salPlotName ∉ mainTrace cfg pages ∧
    Ev.plotSaved locPlotName ∉ mainTrace cfg pages ∧
    Ev.plotSaved skillsWcName ∉ mainTrace cfg pages := by
  have hA := analysesTrace_plots_after_exp cfg (process_job_data (scrape_naukri_jobs pages)) hf
  unfold mainTrace mainBody
  split_ifs <;> simp_all

theorem c5_absent_after_sal (cfg : RunCfg) (pages : List (List JobTuple))
    (hf : cfg.failASal = true) :
    Ev.plotSaved locPlotName ∉ mainTrace cfg pages ∧
    Ev.plotSaved skillsWcName ∉ mainTrace cfg pages := by
  have hA := analysesTrace_plots_after_sal cfg (process_job_data (scrape_naukri_jobs pages)) hf
  unfold mainTrace mainBody
  split_ifs <;> simp_all

theorem c5_absent_after_loc (cfg : RunCfg) (pages : List (List JobTuple))
    (hf : cfg.failALoc = true) :
    Ev.plotSaved skillsWcName ∉ mainTrace cfg pages := by
  have hA := analysesTrace_plots_after_loc cfg (process_job_data (scrape_naukri_jobs pages)) hf
  unfold mainTrace mainBody
  split_ifs <;> simp_all

/-- C5: `main` is a single linear pipeline.  (1) Any prefix of the trace
that contains an analysis event already contains the CSV save: analysis
only runs after the CSV is written.  (2) Any prefix containing the CSV
save already contains the end-of-scraping print: the CSV is written only
after scraping completes.  (3-5) If scraping, cleaning or the CSV write
raises, no analysis runs (and no CSV is saved).  (6-8) If an analysis
stage raises, the later stages never run.  (9) In the no-exception run
on a non-empty dataset the trace is exactly the pipeline in order, every
analysis consuming the dataframe `process_job_data (scrape_naukri_jobs
pages)`, the output of the stage before. -/
theorem c5_linear_pipeline (cfg : RunCfg) (pages : List (List JobTuple)) :
    (∀ t1 t2, mainTrace cfg pages = t1 ++ t2 → (∃ e ∈ t1, isAnalysisEv e = true) →
      Ev.csvSaved csvName ∈ t1) ∧
    (∀ t1 t2, mainTrace cfg pages = t1 ++ t2 → Ev.csvSaved csvName ∈ t1 →
      Ev.printed msgScrapeDone ∈ t1) ∧
    (cfg.failScrape = true → (mainTrace cfg pages).all (fun e => !(isAnalysisEv e)) = true ∧
      Ev.csvSaved csvName ∉ mainTrace cfg pages) ∧
    (cfg.failProcess = true → (mainTrace cfg pages).all (fun e => !(isAnalysisEv e)) = true ∧
      Ev.csvSaved csvName ∉ mainTrace cfg pages) ∧
    (cfg.failToCsv = true → (mainTrace cfg pages).all (fun e => !(isAnalysisEv e)) = true) ∧
    (cfg.failAExp = true → Ev.plotSaved salPlotName ∉ mainTrace cfg pages ∧
      Ev.plotSaved locPlotName ∉ mainTrace cfg pages ∧
      Ev.plotSaved skillsWcName ∉ mainTrace cfg pages) ∧
    (cfg.failASal = true → Ev.plotSaved locPlotName ∉ mainTrace cfg pages ∧
      Ev.plotSaved skillsWcName ∉ mainTrace cfg pages) ∧
    (cfg.failALoc = true → Ev.plotSaved skillsWcName ∉ mainTrace cfg pages) ∧
    ((scrape_naukri_jobs pages).job_no ≠ [] →
      mainTrace cfg0 pages =
        Ev.chromeOpened :: Ev.printed msgScraping :: Ev.printed msgScrapeDone ::
        Ev.csvSaved csvName :: Ev.printed msgCsvNote :: Ev.printed msgAnalyzeExp ::
        (analyze_experience (process_job_data (scrape_naukri_jobs pages)) ++
          Ev.printed msgAnalyzeSal ::
            (analyze_salary (process_job_data (scrape_naukri_jobs pages)) ++
              Ev.printed msgAnalyzeLoc ::
                (clean_and_analyze_locations (process_job_data (scrape_naukri_jobs pages)) ++
                  Ev.printed msgAnalyzeSkills ::
                    (analyze_skills (process_job_data (scrape_naukri_jobs pages)) ++
                      Ev.printed msgDone :: [Ev.driverQuit]))))) := by
  refine ⟨?_, ?_, c5_absent_scrape cfg pages, c5_absent_process cfg pages,
    c5_absent_csv cfg pages, c5_absent_after_exp cfg pages, c5_absent_after_sal cfg pages,
    c5_absent_after_loc cfg pages, ?_⟩
  · intro t1 t2 heq hex
    rcases mainTrace_shape cfg pages with ⟨hall, _⟩ | ⟨rest, hsh⟩
    · obtain ⟨e, he, hPe⟩ := hex
      have hmem : e ∈ mainTrace cfg pages := heq ▸ List.mem_append_left _ he
      have := List.all_eq_true.mp hall e hmem
      simp [hPe] at this
    · rw [hsh] at heq
      refine @mem_prefix_of_before
        [Ev.chromeOpened, Ev.printed msgScraping, Ev.printed msgScrapeDone]
        rest t1 t2 (Ev.csvSaved csvName)
        (fun e => isAnalysisEv e = true) heq ?_ hex
      intro e he
      rcases List.mem_cons.mp he with rfl | he
      · simp [isAnalysisEv]
      rcases List.mem_cons.mp he with rfl | he
      · simp [isAnalysisEv]
      rcases List.mem_cons.mp he with rfl | he
      · simp [isAnalysisEv]
      · simp at he
  · intro t1 t2 heq hcsv
    rcases mainTrace_shape cfg pages with ⟨_, hnocsv⟩ | ⟨rest, hsh⟩
    · exact absurd (heq ▸ List.mem_append_left _ hcsv) hnocsv
    · rw [hsh] at heq
      refine @mem_prefix_of_before
        [Ev.chromeOpened, Ev.printed msgScraping]
        (Ev.csvSaved csvName :: rest) t1 t2 (Ev.printed msgScrapeDone)
        (fun e => e = Ev.csvSaved csvName) heq ?_ ⟨Ev.csvSaved csvName, hcsv, rfl⟩
      intro e he
      rcases List.mem_cons.mp he with rfl | he
      · simp
      rcases List.mem_cons.mp he with rfl | he
      · simp
      · simp at he
  · intro h
    have hie : (scrape_naukri_jobs pages).job_no.isEmpty = false := by
      cases hj : (scrape_naukri_jobs pages).job_no with
      | nil => exact absurd hj h
      | cons a l => rfl
    unfold mainTrace mainBody analysesTrace
    simp [cfg0, hie, List.append_assoc]

def cfgScrapeFail : RunCfg := ⟨false, false, true, false, false, false, false, false, false⟩

/-- Witness for C5: in the no-exception run on `pages1` the CSV save
occurs, and in the run whose scrape raises no analysis event occurs. -/
theorem c5_linear_pipeline_witness :
    Ev.csvSaved csvName ∈ mainTrace cfg0 pages1 ∧
    (mainTrace cfgScrapeFail pages1).all (fun e => !(isAnalysisEv e)) = true := by
  constructor
  · have h9 := (c5_linear_pipeline cfg0 pages1).2.2.2.2.2.2.2.2 (by decide)
    have hex : ∃ e ∈ mainTrace cfg0 pages1, isAnalysisEv e = true := by
      rw [h9]
      refine ⟨Ev.plotSaved expPlotName, ?_, rfl⟩
      simp [analyze_experience]
    exact (c5_linear_pipeline cfg0 pages1).1 (mainTrace cfg0 pages1) [] (by simp) hex
  · exact ((c5_linear_pipeline cfgScrapeFail pages1).2.2.1 rfl).1
